import Mathlib

/-!
Verification of the AQS command-history ranking and normalization engine.

The Python source (aqs_cli.py) is shallowly embedded here over lists of
characters. Strings are `List Char`; the external fuzzy scorer from the
rapidfuzz library is a parameter of the embedding, constrained where a
claim needs its documented bound of at most 100.
-/

namespace AQS

/-- A command-line string, modelled as its list of characters. -/
abbrev Str := List Char

/-- Lower-casing of a string, one character at a time (Python `str.lower`,
restricted to the ASCII behaviour of `Char.toLower`). -/
def lowerStr (s : Str) : Str := s.map Char.toLower

/-- The whitespace characters recognised by Python `str.split()` and
`str.strip()`: space, tab, newline, carriage return, vertical tab, form feed. -/
def pyIsSpace (c : Char) : Bool :=
  c == ' ' || c == '\t' || c == '\n' || c == '\r' || c.toNat == 11 || c.toNat == 12

/-- `startsWith s pat` is Python `s.startswith(pat)`. -/
def startsWith : Str → Str → Bool
  | _, [] => true
  | [], _ :: _ => false
  | c :: cs, p :: ps => c == p && startsWith cs ps

/-- Index of the first occurrence of `pat` in `s`, if any: the combination
of Python `pat in s` (`isSome`) and `s.index(pat)` (the value). -/
def findSub : Str → Str → Option Nat
  | s, pat =>
    match s with
    | [] => if pat = [] then some 0 else none
    | _ :: cs => if startsWith s pat then some 0 else (findSub cs pat).map (· + 1)

/-- Worker for `pySplit`: `acc` holds the characters of the word in
progress, in reverse. -/
def splitAux : Str → Str → List Str
  | [], acc => if acc = [] then [] else [acc.reverse]
  | c :: cs, acc =>
    if pyIsSpace c then
      if acc = [] then splitAux cs [] else acc.reverse :: splitAux cs []
    else
      splitAux cs (c :: acc)

/-- Python `s.split()`: split on runs of whitespace, dropping empty tokens. -/
def pySplit (s : Str) : List Str := splitAux s []

/-- `occursIn w s` states that `w` appears as a contiguous substring of `s`. -/
def occursIn (w s : Str) : Prop := ∃ l₁ l₂ : Str, s = l₁ ++ w ++ l₂

/-- The scoring function of `sort_by_similarity` (`score_item` in the
source), translated branch for branch. `fuzzy` stands for the external
`rapidfuzz` partial-similarity scorer used in the final fallback; `ql` is
the already lower-cased query (the source lowers the query once, outside
this function). The tier is an `Int` because the substring tier computes
`500 - position`, which the source does not clamp. -/
def score_item (fuzzy : Str → Str → Int) (ql : Str) (item : Str) : Int × Nat :=
  if lowerStr item = ql then (1000, 0)
  else if startsWith (lowerStr item) (ql ++ [' ']) || startsWith (lowerStr item) (ql ++ ['\t']) then
    (900, item.length)
  else if lowerStr item = ql then (900, 0)
  else if (pySplit (lowerStr item)).headD [] = ql then (850, item.length)
  else if startsWith ((pySplit (lowerStr item)).headD []) ql then (800, item.length)
  else if ql ∈ pySplit (lowerStr item) then (700, item.length)
  else if (findSub (lowerStr item) (' ' :: ql)).isSome
          || (findSub (lowerStr item) ('/' :: ql)).isSome then (600, item.length)
  else
    match findSub (lowerStr item) ql with
    | some pos => (500 - (pos : Int), item.length)
    | none => (fuzzy ql (lowerStr item), item.length)

/-- Ordering on score pairs induced by the source sort key
`(-tier, tiebreak)` taken ascending: descending tier, then ascending
tiebreak. -/
def keyLe (a b : Int × Nat) : Prop := b.1 < a.1 ∨ (a.1 = b.1 ∧ a.2 ≤ b.2)

instance (a b : Int × Nat) : Decidable (keyLe a b) := by
  unfold keyLe; infer_instance

/-- Insert a scored entry into a list sorted by `keyLe`, after every entry
whose key is less than or equal: combined with a left fold this is exactly
a stable ascending sort, as performed by Python `list.sort`. -/
def sInsert (x : Str × Int × Nat) : List (Str × Int × Nat) → List (Str × Int × Nat)
  | [] => [x]
  | y :: ys => if keyLe y.2 x.2 then y :: sInsert x ys else x :: y :: ys

/-- Stable sort of the scored list by `keyLe`, as Python
`scored.sort(key=lambda x: (-x[1][0], x[1][1]))`. -/
def stableSortScored (l : List (Str × Int × Nat)) : List (Str × Int × Nat) :=
  l.foldl (fun acc x => sInsert x acc) []

/-- The ranker (`sort_by_similarity` in the source). A `none` query models
Python `None`; `if not query` is true exactly for `none` and the empty
string. -/
def sort_by_similarity (fuzzy : Str → Str → Int) (query : Option Str) (items : List Str) :
    List Str :=
  match query with
  | none => items
  | some q =>
    if q = [] then items
    else (stableSortScored (items.map (fun it => (it, score_item fuzzy (lowerStr q) it)))).map
      (·.1)

/-- A concrete fuzzy scorer used to instantiate universally quantified
statements at closed inputs; the bound of 100 holds trivially. -/
def zeroFuzzy : Str → Str → Int := fun _ _ => 0

/-- The line-extraction convention of a history source: plain lines, or the
key-prefixed fish format. -/
inductive SourceKind where
  | plain : SourceKind
  | fish : SourceKind

/-- One readable history source: its extraction convention and its raw
lines (the result of Python `splitlines` on the file text). Missing or
unreadable sources are skipped by the code and so are simply absent here. -/
structure HistSource where
  kind : SourceKind
  lines : List Str

/-- Python `s.strip()`: remove leading and trailing whitespace. -/
def pyStrip (s : Str) : Str :=
  (((s.dropWhile pyIsSpace).reverse).dropWhile pyIsSpace).reverse

/-- Python `s.rstrip(chr)` specialised to newline, as applied to each plain
history line. -/
def rstripNl (s : Str) : Str := (s.reverse.dropWhile (· == '\n')).reverse

/-- Everything after the first colon: Python `s.split(sep, 1)[1]` for a
line known to contain the separator. -/
def afterFirstColon : Str → Str
  | [] => []
  | c :: cs => if c == ':' then cs else afterFirstColon cs

/-- Extraction of one fish-history line: strip, require the marker, take
the text after the first colon, strip it, and drop it when empty. -/
def extractFish (line : Str) : Option Str :=
  if startsWith (pyStrip line) ("- cmd:".toList) then
    if pyStrip (afterFirstColon (pyStrip line)) = [] then none
    else some (pyStrip (afterFirstColon (pyStrip line)))
  else none

/-- Extraction of one plain history line: trailing newlines removed, empty
lines dropped. -/
def extractPlain (line : Str) : Option Str :=
  if rstripNl line = [] then none else some (rstripNl line)

/-- All entries of one source, in line order. -/
def extractSource (src : HistSource) : List Str :=
  src.lines.filterMap (match src.kind with
    | SourceKind.plain => extractPlain
    | SourceKind.fish => extractFish)

/-- The concatenated raw entry sequence of all sources, oldest first. -/
def rawEntries (sources : List HistSource) : List Str :=
  (sources.map extractSource).flatten

/-- The recency window: Python `cmds[-m:]` applied only when
`len(cmds) > m`. Note the Python pitfall that `cmds[-0:]` is the whole
list, which this definition reproduces. -/
def window (m : Nat) (cmds : List Str) : List Str :=
  if cmds.length > m then
    if m = 0 then cmds else cmds.drop (cmds.length - m)
  else cmds

/-- One step of the deduplication loop of `read_history`: skip a command
already seen, otherwise record it and append it to the output. -/
def dedupStep (acc : List Str × List Str) (cmd : Str) : List Str × List Str :=
  if cmd ∈ acc.1 then acc else (cmd :: acc.1, acc.2 ++ [cmd])

/-- The deduplication loop of `read_history`: iterate over the reversed
window with a `seen` set (here a list) and an output accumulator, keeping
the first occurrence of each command. -/
def dedupRecent (cmds : List Str) : List Str :=
  (cmds.reverse.foldl dedupStep ([], [])).2

/-- The normalizer (`read_history` in the source): extract per source,
window to the most recent `m` raw entries, deduplicate newest-first. -/
def read_history (sources : List HistSource) (m : Nat) : List Str :=
  dedupRecent (window m (rawEntries sources))

/-- Written from the words of the specification: the eight-tier precedence
list, evaluated top to bottom with first match winning, on lower-cased
copies of query and entry, with tiebreak the entry length. To be compared
with the source-derived `score_item`. -/
def specScore (fuzzy : Str → Str → Int) (query entry : Str) : Int × Nat :=
  if lowerStr entry = lowerStr query then (1000, 0)
  else if startsWith (lowerStr entry) (lowerStr query ++ [' '])
          || startsWith (lowerStr entry) (lowerStr query ++ ['\t']) then (900, entry.length)
  else if (pySplit (lowerStr entry)).headD [] = lowerStr query then (850, entry.length)
  else if startsWith ((pySplit (lowerStr entry)).headD []) (lowerStr query) then
    (800, entry.length)
  else if lowerStr query ∈ pySplit (lowerStr entry) then (700, entry.length)
  else if (findSub (lowerStr entry) (' ' :: lowerStr query)).isSome
          || (findSub (lowerStr entry) ('/' :: lowerStr query)).isSome then (600, entry.length)
  else
    match findSub (lowerStr entry) (lowerStr query) with
    | some pos => (500 - (pos : Int), entry.length)
    | none => (fuzzy (lowerStr query) (lowerStr entry), entry.length)

/-- Strict total order on (tier, tiebreak, original index) triples written
from the words of the specification: descending tier, then ascending
tiebreak, then ascending original position. -/
def key3Lt (a b : (Int × Nat) × Nat) : Prop :=
  b.1.1 < a.1.1 ∨ (a.1.1 = b.1.1 ∧ (a.1.2 < b.1.2 ∨ (a.1.2 = b.1.2 ∧ a.2 < b.2)))

instance (a b : (Int × Nat) × Nat) : Decidable (key3Lt a b) := by
  unfold key3Lt; infer_instance

/-- Insertion into a list sorted by the strict total key `key3Lt`. -/
def sInsert3 (x : Str × (Int × Nat) × Nat) :
    List (Str × (Int × Nat) × Nat) → List (Str × (Int × Nat) × Nat)
  | [] => [x]
  | y :: ys => if key3Lt y.2 x.2 then y :: sInsert3 x ys else x :: y :: ys

/-- Annotate each scored entry with its original position, starting at `n`. -/
def annotFrom (n : Nat) : List (Str × Int × Nat) → List (Str × (Int × Nat) × Nat)
  | [] => []
  | x :: xs => (x.1, x.2, n) :: annotFrom (n + 1) xs

/-- Written from the words of the specification: score every entry, pair it
with its original position, sort by descending tier, then ascending
tiebreak, then original position, and forget the annotations. -/
def specRank (fuzzy : Str → Str → Int) (q : Str) (items : List Str) : List Str :=
  ((annotFrom 0 (items.map (fun it => (it, specScore fuzzy q it)))).foldl
    (fun acc x => sInsert3 x acc) []).map (·.1)

/-- Written from the words of the specification: keep the first occurrence
of each distinct entry text, in encounter order. -/
def keepFirst : List Str → List Str
  | [] => []
  | x :: xs => x :: keepFirst (xs.filter (fun y => y ≠ x))
termination_by l => l.length
decreasing_by
  simp only [List.length_cons]
  exact Nat.lt_succ_of_le (List.length_filter_le _ _)

/-- Written from the words of the specification: the last `m` elements of a
list (all of it when it is shorter). -/
def takeLast (m : Nat) (l : List Str) : List Str := l.drop (l.length - m)

/-- A variant of `score_item` in which the two Python expressions that
could raise — the `[0]` subscript on the token list and `.index` on the
lowered entry — are routed through `Option`, with exactly the guards the
source places around them; it witnesses that the scorer never raises. -/
def score_itemE (fuzzy : Str → Str → Int) (ql : Str) (item : Str) : Option (Int × Nat) :=
  if lowerStr item = ql then some (1000, 0)
  else if startsWith (lowerStr item) (ql ++ [' ']) || startsWith (lowerStr item) (ql ++ ['\t']) then
    some (900, item.length)
  else if lowerStr item = ql then some (900, 0)
  else
    Option.bind
      (if pySplit (lowerStr item) = [] then some ([] : Str) else (pySplit (lowerStr item)).head?)
      (fun first_word =>
        if first_word = ql then some (850, item.length)
        else if startsWith first_word ql then some (800, item.length)
        else if ql ∈ pySplit (lowerStr item) then some (700, item.length)
        else if (findSub (lowerStr item) (' ' :: ql)).isSome
                || (findSub (lowerStr item) ('/' :: ql)).isSome then some (600, item.length)
        else if (findSub (lowerStr item) ql).isSome then
          Option.bind (findSub (lowerStr item) ql)
            (fun pos => some (500 - (pos : Int), item.length))
        else some (fuzzy ql (lowerStr item), item.length))

/-- Forget the original-position annotation of a scored entry. -/
def stripIdx (t : Str × (Int × Nat) × Nat) : Str × Int × Nat := (t.1, t.2.1)

/-- The scorer expressed on the already lower-cased entry: every use of the
entry in `score_item` goes through its lower-cased copy or its length, and
lower-casing preserves length. -/
def scoreLow (fuzzy : Str → Str → Int) (ql il : Str) : Int × Nat :=
  if il = ql then (1000, 0)
  else if startsWith il (ql ++ [' ']) || startsWith il (ql ++ ['\t']) then (900, il.length)
  else if il = ql then (900, 0)
  else if (pySplit il).headD [] = ql then (850, il.length)
  else if startsWith ((pySplit il).headD []) ql then (800, il.length)
  else if ql ∈ pySplit il then (700, il.length)
  else if (findSub il (' ' :: ql)).isSome || (findSub il ('/' :: ql)).isSome then
    (600, il.length)
  else
    match findSub il ql with
    | some pos => (500 - (pos : Int), il.length)
    | none => (fuzzy ql il, il.length)

example : pySplit "git ls-files".toList = ["git".toList, "ls-files".toList] := by decide
example : score_item zeroFuzzy "ls".toList "ls -la".toList = (900, 6) := by decide
example : score_item zeroFuzzy "ls".toList "echo ls".toList = (700, 7) := by decide
example : score_item zeroFuzzy "ls".toList "git ls-files".toList = (600, 12) := by decide
example : score_item zeroFuzzy "q".toList "xq".toList = (499, 2) := by decide
example :
    sort_by_similarity zeroFuzzy (some "ls".toList)
      ["ls -la".toList, "git ls-files".toList, "ls".toList, "echo ls".toList] =
      ["ls".toList, "ls -la".toList, "echo ls".toList, "git ls-files".toList] := by decide
example :
    read_history [⟨SourceKind.plain, ["a".toList, "b".toList, "a".toList, "c".toList]⟩] 1000 =
      ["c".toList, "a".toList, "b".toList] := by decide
example :
    extractFish "- cmd: git status".toList = some "git status".toList := by decide

/-- The source scorer agrees with the spec-worded precedence list: the only
textual difference is the unreachable repeated exact-match arm of the
source. -/
lemma score_item_eq_specScore (fuzzy : Str → Str → Int) (q e : Str) :
    score_item fuzzy (lowerStr q) e = specScore fuzzy q e := by
  unfold score_item specScore
  split_ifs <;> rfl

lemma sInsert_perm (x : Str × Int × Nat) (l : List (Str × Int × Nat)) :
    (sInsert x l).Perm (x :: l) := by
  induction l with
  | nil => simp [sInsert]
  | cons y ys ih =>
    unfold sInsert
    split_ifs with h
    · exact ((ih.cons y).trans (List.Perm.swap x y ys))
    · exact List.Perm.refl _

lemma foldl_sInsert_perm (l acc : List (Str × Int × Nat)) :
    (l.foldl (fun acc x => sInsert x acc) acc).Perm (acc ++ l) := by
  induction l generalizing acc with
  | nil => simp
  | cons x xs ih =>
    simp only [List.foldl_cons]
    refine (ih (sInsert x acc)).trans ?_
    refine (List.Perm.append_right xs ((sInsert_perm x acc))).trans ?_
    simpa using List.perm_middle.symm

lemma stableSortScored_perm (l : List (Str × Int × Nat)) :
    (stableSortScored l).Perm l := by
  simpa using foldl_sInsert_perm l []

lemma sort_by_similarity_perm (fuzzy : Str → Str → Int) (query : Option Str)
    (items : List Str) : (sort_by_similarity fuzzy query items).Perm items := by
  cases query with
  | none => exact List.Perm.refl _
  | some q =>
    simp only [sort_by_similarity]
    split_ifs with h
    · exact List.Perm.refl _
    · have := (stableSortScored_perm
        (items.map (fun it => (it, score_item fuzzy (lowerStr q) it)))).map
        (fun p : Str × Int × Nat => p.1)
      simpa [List.map_map, Function.comp_def] using this

lemma mem_sInsert3 (x y : Str × (Int × Nat) × Nat) (l : List (Str × (Int × Nat) × Nat)) :
    y ∈ sInsert3 x l ↔ y = x ∨ y ∈ l := by
  induction l with
  | nil => simp [sInsert3]
  | cons z zs ih =>
    unfold sInsert3
    split_ifs with h
    · simp only [List.mem_cons, ih]
      tauto
    · simp only [List.mem_cons]

/-- On triples whose position annotation increases, the strict three-part
order coincides with the two-part sort-key order. -/
lemma key3Lt_iff_keyLe (k₁ k₂ : Int × Nat) (i₁ i₂ : Nat) (h : i₁ < i₂) :
    key3Lt (k₁, i₁) (k₂, i₂) ↔ keyLe k₁ k₂ := by
  unfold key3Lt keyLe
  simp only
  constructor
  · rintro (hlt | ⟨heq, hb | ⟨hbe, _⟩⟩)
    · exact Or.inl hlt
    · exact Or.inr ⟨heq, Nat.le_of_lt hb⟩
    · exact Or.inr ⟨heq, Nat.le_of_eq hbe⟩
  · rintro (hlt | ⟨heq, hb⟩)
    · exact Or.inl hlt
    · rcases Nat.lt_or_ge k₁.2 k₂.2 with hb' | hb'
      · exact Or.inr ⟨heq, Or.inl hb'⟩
      · exact Or.inr ⟨heq, Or.inr ⟨Nat.le_antisymm hb hb', h⟩⟩

lemma map_stripIdx_sInsert3 (x : Str × (Int × Nat) × Nat)
    (acc : List (Str × (Int × Nat) × Nat)) (h : ∀ y ∈ acc, y.2.2 < x.2.2) :
    (sInsert3 x acc).map stripIdx = sInsert (stripIdx x) (acc.map stripIdx) := by
  induction acc with
  | nil => simp [sInsert3, sInsert]
  | cons y ys ih =>
    have hy : y.2.2 < x.2.2 := h y (List.mem_cons_self y ys)
    have hcond : key3Lt y.2 x.2 ↔ keyLe (stripIdx y).2 (stripIdx x).2 :=
      key3Lt_iff_keyLe _ _ _ _ hy
    simp only [List.map_cons, sInsert3, sInsert]
    by_cases hk : key3Lt y.2 x.2
    · rw [if_pos hk, if_pos (hcond.mp hk), List.map_cons,
        ih (fun z hz => h z (List.mem_cons_of_mem y hz))]
    · rw [if_neg hk, if_neg (fun hh => hk (hcond.mpr hh))]
      simp

lemma foldl_annot_strip (l : List (Str × Int × Nat)) (n : Nat)
    (acc : List (Str × (Int × Nat) × Nat)) (h : ∀ y ∈ acc, y.2.2 < n) :
    ((annotFrom n l).foldl (fun a x => sInsert3 x a) acc).map stripIdx =
      l.foldl (fun a x => sInsert x a) (acc.map stripIdx) := by
  induction l generalizing n acc with
  | nil => simp [annotFrom]
  | cons x xs ih =>
    simp only [annotFrom, List.foldl_cons]
    have hmem : ∀ y ∈ sInsert3 (x.1, x.2, n) acc, y.2.2 < n + 1 := by
      intro y hy
      rcases (mem_sInsert3 _ y acc).mp hy with rfl | hy'
      · exact Nat.lt_succ_self n
      · exact Nat.lt_succ_of_lt (h y hy')
    rw [ih (n + 1) _ hmem, map_stripIdx_sInsert3 _ _ (by intro y hy; exact h y hy)]
    rfl

/-- The ranker computes exactly the spec-worded deterministic sort: score,
annotate with original positions, sort by the strict total key, forget
positions. -/
lemma sort_eq_specRank (fuzzy : Str → Str → Int) (q : Str) (items : List Str)
    (hq : q ≠ []) : sort_by_similarity fuzzy (some q) items = specRank fuzzy q items := by
  simp only [sort_by_similarity, specRank, if_neg hq]
  have hscore : items.map (fun it => (it, specScore fuzzy q it)) =
      items.map (fun it => (it, score_item fuzzy (lowerStr q) it)) := by
    apply List.map_congr_left
    intro it _
    rw [score_item_eq_specScore]
  rw [hscore]
  have := foldl_annot_strip (items.map (fun it => (it, score_item fuzzy (lowerStr q) it))) 0 []
    (by intro y hy; cases hy)
  have hmaps : ∀ l : List (Str × (Int × Nat) × Nat),
      l.map (fun t => t.1) = (l.map stripIdx).map (fun p => p.1) := by
    intro l
    rw [List.map_map]
    rfl
  rw [hmaps, this]
  rfl

lemma mem_keepFirst (l : List Str) (y : Str) (h : y ∈ keepFirst l) : y ∈ l := by
  induction l using keepFirst.induct with
  | case1 => simp [keepFirst] at h
  | case2 x xs ih =>
    rw [keepFirst] at h
    rcases List.mem_cons.mp h with rfl | h'
    · exact List.mem_cons_self _ _
    · exact List.mem_cons_of_mem _ (List.mem_of_mem_filter (ih h'))

lemma keepFirst_nodup (l : List Str) : (keepFirst l).Nodup := by
  induction l using keepFirst.induct with
  | case1 => simp [keepFirst]
  | case2 x xs ih =>
    rw [keepFirst]
    refine List.nodup_cons.mpr ⟨?_, ih⟩
    intro hx
    have := List.of_mem_filter (mem_keepFirst _ _ hx)
    simp at this

lemma length_keepFirst_le (l : List Str) : (keepFirst l).length ≤ l.length := by
  induction l using keepFirst.induct with
  | case1 => simp [keepFirst]
  | case2 x xs ih =>
    rw [keepFirst]
    simp only [List.length_cons]
    exact Nat.succ_le_succ (ih.trans (List.length_filter_le _ _))

lemma foldl_dedupStep (l : List Str) (seen uniq : List Str) :
    (l.foldl dedupStep (seen, uniq)).2 =
      uniq ++ keepFirst (l.filter (fun y => decide (y ∉ seen))) := by
  induction l generalizing seen uniq with
  | nil => simp [keepFirst]
  | cons c l ih =>
    simp only [List.foldl_cons, dedupStep]
    by_cases hc : c ∈ seen
    · rw [if_pos hc, ih seen uniq]
      simp [List.filter_cons, hc]
    · rw [if_neg hc, ih (c :: seen) (uniq ++ [c])]
      have hfil : l.filter (fun y => decide (y ∉ c :: seen)) =
          (l.filter (fun y => decide (y ∉ seen))).filter (fun y => decide (y ≠ c)) := by
        rw [List.filter_filter]
        apply List.filter_congr
        intro a _
        by_cases h1 : a = c <;> by_cases h2 : a ∈ seen <;> simp [h1, h2]
      rw [hfil]
      simp [List.filter_cons, hc, keepFirst]

lemma dedupRecent_eq_keepFirst (l : List Str) : dedupRecent l = keepFirst l.reverse := by
  unfold dedupRecent
  rw [foldl_dedupStep]
  have : l.reverse.filter (fun y => decide (y ∉ ([] : List Str))) = l.reverse := by
    apply List.filter_eq_self.mpr
    intro a _
    simp
  rw [this]
  simp

lemma window_eq_takeLast (m : Nat) (l : List Str) (hm : 0 < m) (hl : m < l.length) :
    window m l = takeLast m l := by
  unfold window takeLast
  rw [if_pos hl, if_neg (by omega : ¬ m = 0)]

lemma length_window_le (m : Nat) (l : List Str) (hm : 0 < m) : (window m l).length ≤ m := by
  unfold window
  split_ifs with h1 h2
  · omega
  · simp only [List.length_drop]
    omega
  · omega

lemma startsWith_iff (s p : Str) : startsWith s p = true ↔ ∃ r, s = p ++ r := by
  induction p generalizing s with
  | nil =>
    simp only [startsWith, List.nil_append, true_iff]
    exact ⟨s, rfl⟩
  | cons p ps ih =>
    cases s with
    | nil =>
      simp [startsWith]
    | cons c cs =>
      simp only [startsWith, Bool.and_eq_true, beq_iff_eq, ih, List.cons_append]
      constructor
      · rintro ⟨rfl, r, rfl⟩
        exact ⟨r, rfl⟩
      · rintro ⟨r, hr⟩
        injection hr with hr1 hr2
        exact ⟨hr1, r, hr2⟩

lemma occursIn_refl (s : Str) : occursIn s s := ⟨[], [], by simp⟩

lemma occursIn_append_left (w t s : Str) (h : occursIn w t) : occursIn w (s ++ t) := by
  rcases h with ⟨l₁, l₂, rfl⟩
  exact ⟨s ++ l₁, l₂, by simp⟩

lemma occursIn_append_right (w s t : Str) (h : occursIn w s) : occursIn w (s ++ t) := by
  rcases h with ⟨l₁, l₂, rfl⟩
  exact ⟨l₁, l₂ ++ t, by simp⟩

lemma occursIn_trans (a b c : Str) (hab : occursIn a b) (hbc : occursIn b c) :
    occursIn a c := by
  rcases hab with ⟨l₁, l₂, rfl⟩
  rcases hbc with ⟨m₁, m₂, rfl⟩
  exact ⟨m₁ ++ l₁, l₂ ++ m₂, by simp⟩

lemma findSub_isSome_iff (s p : Str) : (findSub s p).isSome = true ↔ occursIn p s := by
  induction s with
  | nil =>
    by_cases hp : p = []
    · subst hp
      simpa [findSub] using occursIn_refl []
    · simp only [findSub, if_neg hp]
      constructor
      · intro h
        simp at h
      · rintro ⟨l₁, l₂, hl⟩
        have hlen := congrArg List.length hl
        simp [List.length_append] at hlen
        exact absurd (List.length_eq_zero.mp (by omega)) hp
  | cons c cs ih =>
    by_cases hs : startsWith (c :: cs) p = true
    · simp only [findSub, if_pos hs, Option.isSome_some, true_iff]
      rcases (startsWith_iff _ _).mp hs with ⟨r, hr⟩
      exact ⟨[], r, by simpa using hr⟩
    · simp only [findSub, if_neg hs]
      have hmap : (Option.map (fun x => x + 1) (findSub cs p)).isSome =
          (findSub cs p).isSome := by
        cases findSub cs p <;> rfl
      rw [hmap, ih]
      constructor
      · intro h
        rcases h with ⟨l₁, l₂, rfl⟩
        exact ⟨c :: l₁, l₂, rfl⟩
      · rintro ⟨l₁, l₂, hl⟩
        cases l₁ with
        | nil =>
          exact absurd ((startsWith_iff _ _).mpr ⟨l₂, by simpa using hl⟩) hs
        | cons a l₁ =>
          injection hl with h1 h2
          exact ⟨l₁, l₂, h2⟩

lemma token_occursIn (s : Str) (acc : Str) (w : Str) (h : w ∈ splitAux s acc) :
    occursIn w (acc.reverse ++ s) := by
  induction s generalizing acc with
  | nil =>
    simp only [splitAux] at h
    split_ifs at h with ha
    · simp at h
    · rcases List.mem_singleton.mp h with rfl
      simpa using occursIn_refl acc.reverse
  | cons c cs ih =>
    simp only [splitAux] at h
    split_ifs at h with hsp ha
    · subst ha
      have h' := ih [] h
      simp only [List.reverse_nil, List.nil_append] at h' ⊢
      exact occursIn_append_left w cs [c] h'
    · rcases List.mem_cons.mp h with rfl | h'
      · exact occursIn_append_right _ _ _ (occursIn_refl acc.reverse)
      · have h'' := ih [] h'
        simp only [List.reverse_nil, List.nil_append] at h''
        exact occursIn_append_left w (c :: cs) acc.reverse
          (occursIn_append_left w cs [c] h'')
    · have h' := ih (c :: acc) h
      simpa [List.append_assoc] using h'

lemma mem_pySplit_occursIn (s w : Str) (h : w ∈ pySplit s) : occursIn w s := by
  simpa using token_occursIn s [] w h

/-- When the lowered query occurs nowhere in the lowered entry, every
structural tier fails and the scorer falls through to the fuzzy tier. -/
lemma score_item_fallthrough (fuzzy : Str → Str → Int) (ql e : Str) (hq : ql ≠ [])
    (hnone : findSub (lowerStr e) ql = none) :
    score_item fuzzy ql e = (fuzzy ql (lowerStr e), e.length) := by
  have hno : ¬ occursIn ql (lowerStr e) := by
    rw [← findSub_isSome_iff, hnone]
    simp
  have h1 : ¬ (lowerStr e = ql) := by
    intro h
    exact hno (by rw [h]; exact occursIn_refl ql)
  have hsw : ∀ x : Char, ¬ startsWith (lowerStr e) (ql ++ [x]) = true := by
    intro x hx
    rcases (startsWith_iff _ _).mp hx with ⟨r, hr⟩
    exact hno ⟨[], x :: r, by simpa [List.append_assoc] using hr⟩
  have h2 : ¬ (startsWith (lowerStr e) (ql ++ [' '])
      || startsWith (lowerStr e) (ql ++ ['\t'])) = true := by
    simp only [Bool.or_eq_true, not_or]
    exact ⟨hsw ' ', hsw '\t'⟩
  have h4 : ¬ ((pySplit (lowerStr e)).headD [] = ql) := by
    intro h
    cases hsp : pySplit (lowerStr e) with
    | nil => rw [hsp] at h; exact hq (by simpa using h.symm)
    | cons w ws =>
      rw [hsp] at h
      simp only [List.headD_cons] at h
      subst h
      exact hno (mem_pySplit_occursIn _ _ (by rw [hsp]; exact List.mem_cons_self _ _))
  have h5 : ¬ startsWith ((pySplit (lowerStr e)).headD []) ql = true := by
    intro h
    cases hsp : pySplit (lowerStr e) with
    | nil =>
      rw [hsp] at h
      simp only [List.headD_nil] at h
      rcases (startsWith_iff _ _).mp h with ⟨r, hr⟩
      exact hq (List.append_eq_nil.mp hr.symm).1
    | cons w ws =>
      rw [hsp] at h
      simp only [List.headD_cons] at h
      rcases (startsWith_iff _ _).mp h with ⟨r, hr⟩
      refine hno (occursIn_trans ql w _ ⟨[], r, by simpa using hr⟩ ?_)
      exact mem_pySplit_occursIn _ _ (by rw [hsp]; exact List.mem_cons_self _ _)
  have h6 : ¬ (ql ∈ pySplit (lowerStr e)) := fun h => hno (mem_pySplit_occursIn _ _ h)
  have hsub : ∀ x : Char, ¬ (findSub (lowerStr e) (x :: ql)).isSome = true := by
    intro x hx
    rcases (findSub_isSome_iff _ _).mp hx with ⟨l₁, l₂, hl⟩
    exact hno ⟨l₁ ++ [x], l₂, by simpa [List.append_assoc] using hl⟩
  have h7 : ¬ ((findSub (lowerStr e) (' ' :: ql)).isSome
      || (findSub (lowerStr e) ('/' :: ql)).isSome) = true := by
    simp only [Bool.or_eq_true, not_or]
    exact ⟨hsub ' ', hsub '/'⟩
  unfold score_item
  rw [if_neg h1, if_neg h2, if_neg h1, if_neg h4, if_neg h5, if_neg h6, if_neg h7, hnone]

/-- The two expressions of the scorer that Python could in principle raise
on are guarded, so the `Option`-mirrored scorer always succeeds, with the
same value as the total one. -/
lemma optSomeBind {α β : Type} (a : α) (f : α → Option β) : Option.bind (some a) f = f a := rfl

lemma guardedHead_eq (l : List Str) :
    (if l = [] then some ([] : Str) else l.head?) = some (l.headD []) := by
  cases l <;> simp

lemma score_itemE_eq_some (fuzzy : Str → Str → Int) (ql item : Str) :
    score_itemE fuzzy ql item = some (score_item fuzzy ql item) := by
  unfold score_itemE score_item
  rw [guardedHead_eq]
  simp only [optSomeBind]
  split_ifs with hc1 hc2 hc4 hc5 hc6 hc7 hc8 <;> try rfl
  · rcases Option.isSome_iff_exists.mp hc8 with ⟨pos, hpos⟩
    rw [hpos]
    rfl
  · cases hfind : findSub (lowerStr item) ql with
    | none => rfl
    | some pos =>
      rw [hfind] at hc8
      simp at hc8

lemma score_item_eq_scoreLow (fuzzy : Str → Str → Int) (ql e : Str) :
    score_item fuzzy ql e = scoreLow fuzzy ql (lowerStr e) := by
  have hl : (lowerStr e).length = e.length := List.length_map _ _
  unfold score_item scoreLow
  rw [hl]

lemma score_item_lower_congr (fuzzy : Str → Str → Int) (q₁ q₂ e₁ e₂ : Str)
    (hq : lowerStr q₁ = lowerStr q₂) (he : lowerStr e₁ = lowerStr e₂) :
    score_item fuzzy (lowerStr q₁) e₁ = score_item fuzzy (lowerStr q₂) e₂ := by
  rw [score_item_eq_scoreLow, score_item_eq_scoreLow, hq, he]

lemma keyLe_fuzzy_900 (f : Int) (hf : f ≤ 100) (b₁ b₂ : Nat) :
    ¬ keyLe (f, b₁) ((900 : Int), b₂) := by
  rintro (h | ⟨h, _⟩) <;> simp at h <;> omega

lemma keyLe_900_fuzzy (f : Int) (hf : f ≤ 100) (b₁ b₂ : Nat) :
    keyLe ((900 : Int), b₁) (f, b₂) := by
  left
  simp only
  omega

/-- With any fuzzy scorer bounded by 100, the ranker puts the sole
structural match first in the mixed-case example. -/
lemma rank_git_head (fuzzy : Str → Str → Int) (hf : ∀ a b : Str, fuzzy a b ≤ 100) :
    (sort_by_similarity fuzzy (some "git".toList)
      ["LS -la".toList, "Git Push".toList, "ECHO hello".toList]).head? =
      some "Git Push".toList := by
  have hb1 : fuzzy "git".toList "ls -la".toList ≤ 100 := hf _ _
  have hb2 : fuzzy "git".toList "echo hello".toList ≤ 100 := hf _ _
  have e0 : sort_by_similarity fuzzy (some "git".toList)
      ["LS -la".toList, "Git Push".toList, "ECHO hello".toList] =
      (stableSortScored
        [("LS -la".toList, (fuzzy "git".toList "ls -la".toList, 6)),
         ("Git Push".toList, ((900 : Int), 8)),
         ("ECHO hello".toList, (fuzzy "git".toList "echo hello".toList, 10))]).map (·.1) := rfl
  rw [e0]
  simp only [stableSortScored, List.foldl_cons, List.foldl_nil, sInsert]
  rw [if_neg (keyLe_fuzzy_900 _ hb1 6 8)]
  simp only [sInsert]
  rw [if_pos (keyLe_900_fuzzy _ hb2 8 10)]
  rfl

/-- Whenever the substring tier is the one that fires, the computed tier is
`500 - pos`: at most 500, strictly below tier 6, and inside the fuzzy range
`[0, 100]` as soon as the occurrence index reaches 400. -/
lemma score_item_tier7 (fuzzy : Str → Str → Int) (ql e : Str) (pos : Nat)
    (h1 : ¬ lowerStr e = ql)
    (h2 : ¬ (startsWith (lowerStr e) (ql ++ [' '])
      || startsWith (lowerStr e) (ql ++ ['\t'])) = true)
    (h4 : ¬ (pySplit (lowerStr e)).headD [] = ql)
    (h5 : ¬ startsWith ((pySplit (lowerStr e)).headD []) ql = true)
    (h6 : ql ∉ pySplit (lowerStr e))
    (h7 : ¬ ((findSub (lowerStr e) (' ' :: ql)).isSome
      || (findSub (lowerStr e) ('/' :: ql)).isSome) = true)
    (hpos : findSub (lowerStr e) ql = some pos) :
    score_item fuzzy ql e = (500 - (pos : Int), e.length) ∧ (500 - (pos : Int)) ≤ 500 ∧
      (500 - (pos : Int)) < 600 ∧ (400 ≤ pos → 500 - (pos : Int) ≤ 100) := by
  refine ⟨?_, by omega, by omega, fun h => by omega⟩
  unfold score_item
  rw [if_neg h1, if_neg h2, if_neg h1, if_neg h4, if_neg h5, if_neg h6, if_neg h7, hpos]

/-- C1: for every non-empty query and every entry, the Ranker assigns the
(tier, tiebreak) pair by evaluating the precedence list top-to-bottom with
first match winning, on lower-cased copies of query and entry: the source
scorer agrees with the spec-worded `specScore` for every fuzzy scorer, and
in the concrete example `rank "ls"` puts `"ls"` first. -/
theorem claim_C1_tier_assignment :
    (∀ (fuzzy : Str → Str → Int) (q e : Str), q ≠ [] →
      score_item fuzzy (lowerStr q) e = specScore fuzzy q e) ∧
    (∀ fuzzy : Str → Str → Int,
      (sort_by_similarity fuzzy (some "ls".toList)
        ["ls -la".toList, "git ls-files".toList, "ls".toList, "echo ls".toList]).head? =
        some "ls".toList) :=
  ⟨fun fuzzy q e _ => score_item_eq_specScore fuzzy q e, fun _ => rfl⟩

/-- Witness for C1 at the concrete query `"ls"` and entry `"git ls-files"`. -/
theorem claim_C1_witness :
    score_item zeroFuzzy (lowerStr "ls".toList) "git ls-files".toList =
      specScore zeroFuzzy "ls".toList "git ls-files".toList :=
  claim_C1_tier_assignment.1 zeroFuzzy "ls".toList "git ls-files".toList (by decide)

set_option maxRecDepth 4000 in
/-- C2 counterexample: for query `"q"` and an entry of 401 letters followed
by `q`, the substring tier fires at index 401 and the computed tier is 99,
which is not in the open interval (400, 600) and lies inside the fuzzy
range [0, 100]. -/
theorem claim_C2_counterexample :
    score_item zeroFuzzy (lowerStr "q".toList) (List.replicate 401 'a' ++ "q".toList) =
      (99, 402) ∧ ¬ ((400 : Int) < 99 ∧ (99 : Int) < 600) ∧
      (0 : Int) ≤ 99 ∧ (99 : Int) ≤ 100 :=
  ⟨by decide, by decide, by decide, by decide⟩

/-- C2 (amended): whenever the substring tier is the one that fires, the
tier equals `500 - pos`, which is at most 500 and therefore never collides
with tier 6, but is not bounded below by 400: as soon as the occurrence
index reaches 400 it falls into or below the fuzzy range [0, 100]. -/
theorem claim_C2_tier7_bounds (fuzzy : Str → Str → Int) (ql e : Str) (pos : Nat)
    (h1 : ¬ lowerStr e = ql)
    (h2 : ¬ (startsWith (lowerStr e) (ql ++ [' '])
      || startsWith (lowerStr e) (ql ++ ['\t'])) = true)
    (h4 : ¬ (pySplit (lowerStr e)).headD [] = ql)
    (h5 : ¬ startsWith ((pySplit (lowerStr e)).headD []) ql = true)
    (h6 : ql ∉ pySplit (lowerStr e))
    (h7 : ¬ ((findSub (lowerStr e) (' ' :: ql)).isSome
      || (findSub (lowerStr e) ('/' :: ql)).isSome) = true)
    (hpos : findSub (lowerStr e) ql = some pos) :
    score_item fuzzy ql e = (500 - (pos : Int), e.length) ∧ (500 - (pos : Int)) ≤ 500 ∧
      (500 - (pos : Int)) < 600 ∧ (400 ≤ pos → 500 - (pos : Int) ≤ 100) :=
  score_item_tier7 fuzzy ql e pos h1 h2 h4 h5 h6 h7 hpos

/-- Witness for the amended C2 at query `"q"` and entry `"xq"`. -/
theorem claim_C2_witness :
    score_item zeroFuzzy "q".toList "xq".toList = (499, 2) ∧ ((499 : Int)) ≤ 500 ∧
      ((499 : Int)) < 600 ∧ (400 ≤ 1 → (499 : Int) ≤ 100) := by
  have h := claim_C2_tier7_bounds zeroFuzzy "q".toList "xq".toList 1 (by decide) (by decide)
    (by decide) (by decide) (by decide) (by decide) (by decide)
  exact h

/-- C3: for every non-empty query, the Ranker output is exactly the
spec-worded deterministic sort by descending tier, then ascending tiebreak,
then original position; and the shorter-preferred example sorts fully as
the specification lists it. -/
theorem claim_C3_deterministic_order :
    (∀ (fuzzy : Str → Str → Int) (q : Str) (items : List Str), q ≠ [] →
      sort_by_similarity fuzzy (some q) items = specRank fuzzy q items) ∧
    (∀ fuzzy : Str → Str → Int,
      sort_by_similarity fuzzy (some "ls".toList)
        ["ls -la --color=auto".toList, "ls -la".toList, "ls -l".toList, "ls".toList] =
        ["ls".toList, "ls -l".toList, "ls -la".toList, "ls -la --color=auto".toList]) :=
  ⟨sort_eq_specRank, fun _ => rfl⟩

/-- Witness for C3 at the concrete query `"ls"` and a two-item list. -/
theorem claim_C3_witness :
    sort_by_similarity zeroFuzzy (some "ls".toList) ["ls -l".toList, "ls".toList] =
      specRank zeroFuzzy "ls".toList ["ls -l".toList, "ls".toList] :=
  claim_C3_deterministic_order.1 zeroFuzzy "ls".toList ["ls -l".toList, "ls".toList] (by decide)

/-- C4: for every sequence of sources and every window size, the normalized
history is duplicate-free and equals the scan of the reversed windowed raw
sequence that keeps first occurrences; and the dedup-recency example
normalizes to `["c", "a", "b"]`. -/
theorem claim_C4_dedup_newest_first :
    (∀ (sources : List HistSource) (m : Nat),
      (read_history sources m).Nodup ∧
      read_history sources m = keepFirst ((window m (rawEntries sources)).reverse)) ∧
    read_history [⟨SourceKind.plain, ["a".toList, "b".toList, "a".toList, "c".toList]⟩] 1000 =
      ["c".toList, "a".toList, "b".toList] := by
  refine ⟨fun sources m => ⟨?_, ?_⟩, by decide⟩
  · rw [read_history, dedupRecent_eq_keepFirst]
    exact keepFirst_nodup _
  · rw [read_history, dedupRecent_eq_keepFirst]

/-- C5 counterexample: with `max_entries = 0` the raw sequence `["a"]`
exceeds the window, whose last 0 elements are none at all, yet the
normalizer passes the whole sequence to dedup and returns `["a"]` — the
Python slice `cmds[-0:]` keeps everything. -/
theorem claim_C5_counterexample :
    read_history [⟨SourceKind.plain, ["a".toList]⟩] 0 = ["a".toList] ∧
      (rawEntries [⟨SourceKind.plain, ["a".toList]⟩]).length > 0 ∧
      takeLast 0 (rawEntries [⟨SourceKind.plain, ["a".toList]⟩]) = [] :=
  ⟨by decide, by decide, by decide⟩

/-- C5 (amended): for every positive `max_entries`, when the raw sequence
exceeds it the window keeps exactly the last `max_entries` entries,
truncation happens before deduplication, and with `max_entries = 2` the raw
lines `["a", "b", "c"]` are windowed to `["b", "c"]`. -/
theorem claim_C5_window_truncation (sources : List HistSource) (m : Nat) (hm : 0 < m)
    (hlen : m < (rawEntries sources).length) :
    window m (rawEntries sources) = takeLast m (rawEntries sources) ∧
    read_history sources m = dedupRecent (takeLast m (rawEntries sources)) ∧
    window 2 ["a".toList, "b".toList, "c".toList] = ["b".toList, "c".toList] := by
  refine ⟨window_eq_takeLast m _ hm hlen, ?_, by decide⟩
  rw [read_history, window_eq_takeLast m _ hm hlen]

/-- Witness for the amended C5 at three raw lines and window size 2. -/
theorem claim_C5_witness :
    window 2 (rawEntries [⟨SourceKind.plain, ["a".toList, "b".toList, "c".toList]⟩]) =
      takeLast 2 (rawEntries [⟨SourceKind.plain, ["a".toList, "b".toList, "c".toList]⟩]) ∧
    read_history [⟨SourceKind.plain, ["a".toList, "b".toList, "c".toList]⟩] 2 =
      dedupRecent (takeLast 2
        (rawEntries [⟨SourceKind.plain, ["a".toList, "b".toList, "c".toList]⟩])) ∧
    window 2 ["a".toList, "b".toList, "c".toList] = ["b".toList, "c".toList] :=
  claim_C5_window_truncation [⟨SourceKind.plain, ["a".toList, "b".toList, "c".toList]⟩] 2
    (by decide) (by decide)

/-- C6: for every query and items list, the Ranker output is a permutation
of the input — same length, same multiset, nothing filtered or altered. -/
theorem claim_C6_permutation (fuzzy : Str → Str → Int) (query : Option Str)
    (items : List Str) : (sort_by_similarity fuzzy query items).Perm items :=
  sort_by_similarity_perm fuzzy query items

/-- C7: for every items list, an absent (`none`) or empty query makes the
Ranker the identity. -/
theorem claim_C7_empty_query_identity (fuzzy : Str → Str → Int) (items : List Str) :
    sort_by_similarity fuzzy none items = items ∧
      sort_by_similarity fuzzy (some "".toList) items = items :=
  ⟨rfl, rfl⟩

/-- C8: the Ranker is total — the `Option`-mirrored scorer always succeeds
with the same value as the total one, an empty items list yields an empty
result, and an entry with no substring relationship to the (non-empty)
query falls through to the fuzzy tier instead of erroring. -/
theorem claim_C8_totality (fuzzy : Str → Str → Int) (q e : Str) (hq : q ≠ [])
    (hnone : findSub (lowerStr e) (lowerStr q) = none) :
    (∀ ql item : Str, score_itemE fuzzy ql item = some (score_item fuzzy ql item)) ∧
    sort_by_similarity fuzzy (some q) [] = [] ∧
    score_item fuzzy (lowerStr q) e = (fuzzy (lowerStr q) (lowerStr e), e.length) := by
  refine ⟨score_itemE_eq_some fuzzy, ?_, ?_⟩
  · simp only [sort_by_similarity, if_neg hq, List.map_nil]
    rfl
  · exact score_item_fallthrough fuzzy (lowerStr q) e
      (fun h => hq (List.map_eq_nil_iff.mp h)) hnone

/-- Witness for C8 at query `"git"` and a whitespace-only entry. -/
theorem claim_C8_witness :
    (score_itemE zeroFuzzy "git".toList "   ".toList =
      some (score_item zeroFuzzy "git".toList "   ".toList)) ∧
    sort_by_similarity zeroFuzzy (some "git".toList) [] = [] ∧
    score_item zeroFuzzy (lowerStr "git".toList) "   ".toList =
      (zeroFuzzy (lowerStr "git".toList) (lowerStr "   ".toList), ("   ".toList).length) := by
  have h := claim_C8_totality zeroFuzzy "git".toList "   ".toList (by decide) (by decide)
  exact ⟨h.1 "git".toList "   ".toList, h.2.1, h.2.2⟩

/-- C9: matching is case-insensitive while identity is case-sensitive:
scores depend only on the lower-cased query and entry, output entries are
drawn unmodified from the input, and in the mixed-case example
`"Git Push"` ranks first for any fuzzy scorer bounded by 100. -/
theorem claim_C9_case_insensitive :
    (∀ (fuzzy : Str → Str → Int) (q₁ q₂ e₁ e₂ : Str), lowerStr q₁ = lowerStr q₂ →
      lowerStr e₁ = lowerStr e₂ →
      score_item fuzzy (lowerStr q₁) e₁ = score_item fuzzy (lowerStr q₂) e₂) ∧
    (∀ (fuzzy : Str → Str → Int) (query : Option Str) (items : List Str) (x : Str),
      x ∈ sort_by_similarity fuzzy query items → x ∈ items) ∧
    (∀ fuzzy : Str → Str → Int, (∀ a b : Str, fuzzy a b ≤ 100) →
      (sort_by_similarity fuzzy (some "git".toList)
        ["LS -la".toList, "Git Push".toList, "ECHO hello".toList]).head? =
        some "Git Push".toList) :=
  ⟨score_item_lower_congr,
   fun fuzzy query items _ hx => (sort_by_similarity_perm fuzzy query items).mem_iff.mp hx,
   rank_git_head⟩

/-- Witness for C9: query `"GIT"` against entry `"LS -la"` scores the same
as query `"git"` against entry `"ls -LA"`. -/
theorem claim_C9_witness :
    score_item zeroFuzzy (lowerStr "GIT".toList) "LS -la".toList =
      score_item zeroFuzzy (lowerStr "git".toList) "ls -LA".toList :=
  claim_C9_case_insensitive.1 zeroFuzzy "GIT".toList "git".toList "LS -la".toList
    "ls -LA".toList (by decide) (by decide)

/-- C10: for every sequence of sources and positive window size, the
normalized history is no longer than the window, since the window bounds
the dedup input and deduplication never adds entries. -/
theorem claim_C10_output_bounded (sources : List HistSource) (m : Nat) (hm : 0 < m) :
    (read_history sources m).length ≤ m := by
  rw [read_history, dedupRecent_eq_keepFirst]
  calc (keepFirst (window m (rawEntries sources)).reverse).length
      ≤ (window m (rawEntries sources)).reverse.length := length_keepFirst_le _
    _ = (window m (rawEntries sources)).length := List.length_reverse _
    _ ≤ m := length_window_le m _ hm

/-- Witness for C10 at two raw lines and window size 1. -/
theorem claim_C10_witness :
    (read_history [⟨SourceKind.plain, ["a".toList, "b".toList]⟩] 1).length ≤ 1 :=
  claim_C10_output_bounded [⟨SourceKind.plain, ["a".toList, "b".toList]⟩] 1 (by decide)

end AQS
